import Mathlib

/-!
Verification of the kvas-domains aggregation pipeline (src/build.py and
src/build_v2fly.py) against its natural-language specification.

The Python code is shallowly embedded: strings are Lean `String`s (lists of
characters), Python `str.strip` / `str.lower` / `str.replace("\r", "")` /
`str.splitlines` become executable functions on `List Char` (ASCII model),
the regular expression `DOMAIN_RE` becomes a structural matcher on the
dot-separated labels of the string, and the pure core of `main` becomes a
function from fetch results to the run's outputs.
-/

set_option maxRecDepth 4000

/-- Python whitespace (ASCII fragment), as stripped by `str.strip()`. -/
def isSpaceChar (c : Char) : Bool :=
  c == ' ' || c == '\t' || c == '\n' || c == '\r' || c == '\x0b' || c == '\x0c'

/-- `str.strip()` on the character list: drop whitespace from both ends. -/
def stripL (l : List Char) : List Char :=
  ((l.dropWhile isSpaceChar).reverse.dropWhile isSpaceChar).reverse

/-- `str.lower()` on one character (ASCII model): map A-Z to a-z. -/
def pyLowerChar (c : Char) : Char :=
  if h : 65 ≤ c.toNat ∧ c.toNat ≤ 90 then
    Char.ofNatAux (c.toNat + 32) (Or.inl (by omega))
  else c

/-- `str.lower()` on the character list. -/
def lowerL (l : List Char) : List Char := l.map pyLowerChar

/-- `str.replace("\r", "")`: delete every carriage return. -/
def removeCR (l : List Char) : List Char := l.filter (fun c => c != '\r')

/-- Split a character list at every dot, Python `str.split(".")` style
(`splitOnDot [] = [[]]`, and a trailing dot yields a trailing `[]`). -/
def splitOnDot : List Char → List (List Char)
  | [] => [[]]
  | c :: rest =>
    if c = '.' then [] :: splitOnDot rest
    else
      match splitOnDot rest with
      | [] => [[c]]
      | p :: ps => (c :: p) :: ps

/-- `[a-z0-9]` (the input to `DOMAIN_RE` is already lower-cased). -/
def isAlnumChar (c : Char) : Bool :=
  ('a' ≤ c && c ≤ 'z') || ('0' ≤ c && c ≤ '9')

/-- `[a-z0-9-]`. -/
def isLabelChar (c : Char) : Bool := isAlnumChar c || c == '-'

/-- One non-final label of `DOMAIN_RE`:
`[a-z0-9](?:[a-z0-9-]{0,61}[a-z0-9])?` — first char alphanumeric and, if
the label is longer, interior chars in `[a-z0-9-]` (at most 61 of them)
with an alphanumeric last char. -/
def isLabel : List Char → Bool
  | [] => false
  | a :: rest =>
    isAlnumChar a && rest.length ≤ 62 &&
      (rest.isEmpty || (rest.dropLast.all isLabelChar &&
        rest.getLast?.elim false isAlnumChar))

/-- The final label of `DOMAIN_RE`: `[a-z0-9-]{2,63}`. -/
def isFinalLabel (l : List Char) : Bool :=
  2 ≤ l.length && l.length ≤ 63 && l.all isLabelChar

/-- `DOMAIN_RE = ^(?:[a-z0-9](?:[a-z0-9-]{0,61}[a-z0-9])?\.)+[a-z0-9-]{2,63}$`
decoded structurally: splitting at the dots must give at least two parts,
every part but the last a label, and the last part a final label.  (The
labels contain no dot, so this is exactly the set of strings matched by
the regular expression.) -/
def domainRe (l : List Char) : Bool :=
  let parts := splitOnDot l
  2 ≤ parts.length && parts.dropLast.all isLabel &&
    parts.getLast?.elim false isFinalLabel

/-- `is_domain(s)`: `bool(DOMAIN_RE.match(s.strip().lower()))`.
(`DOMAIN_RE` carries `re.IGNORECASE`, but its input here is lower-cased
first, so matching the lowercase pattern is equivalent.) -/
def is_domain (s : String) : Bool := domainRe (lowerL (stripL s.data))

/-- `normalize_domain(s)`: strip, lower-case, delete `"\r"`, reject the
empty string, drop one trailing dot, and keep the result only if
`is_domain` accepts it. -/
def normalize_domain (s : String) : Option String :=
  let t := removeCR (lowerL (stripL s.data))
  if t = [] then none
  else
    let t2 := if t.getLast? = some '.' then t.dropLast else t
    if is_domain ⟨t2⟩ then some ⟨t2⟩ else none

/-- Helper for `splitLines`: accumulate the current line (reversed) and
split at `"\r\n"`, `"\n"` or `"\r"`; a terminator at the end of the text
does not open a new empty line (Python `str.splitlines()`). -/
def splitLinesGo : List Char → List Char → List (List Char)
  | [], acc => [acc.reverse]
  | '\r' :: '\n' :: rest, acc =>
    acc.reverse :: (if rest.isEmpty then [] else splitLinesGo rest [])
  | '\n' :: rest, acc =>
    acc.reverse :: (if rest.isEmpty then [] else splitLinesGo rest [])
  | '\r' :: rest, acc =>
    acc.reverse :: (if rest.isEmpty then [] else splitLinesGo rest [])
  | c :: rest, acc => splitLinesGo rest (c :: acc)

/-- Python `str.splitlines()` (ASCII terminators). -/
def splitLines (l : List Char) : List (List Char) :=
  if l.isEmpty then [] else splitLinesGo l []

/-- `parse_itdog(text)`: per line, strip; skip blank lines and `#` comments;
keep the domains `normalize_domain` accepts, silently dropping the rest,
preserving line order and keeping duplicates. -/
def parse_itdog (text : String) : List String :=
  (splitLines text.data).filterMap (fun raw =>
    let line := stripL raw
    if line = [] then none
    else if line.head? = some '#' then none
    else normalize_domain ⟨line⟩)

/-- `V2FLY_EXTRACT_PREFIXES = ("full:", "domain:")`. -/
def V2FLY_EXTRACT_MARKERS : List String := ["full:", "domain:"]

/-- `V2FLY_DIRECTIVE_PREFIXES` of `build.py`. -/
def V2FLY_DIRECTIVE_MARKERS : List String :=
  ["include:", "regexp:", "keyword:", "suffix:", "prefix:", "geosite:", "ext:",
   "tag:", "and:", "or:", "not:", "port:", "ipcidr:", "ip:", "payload:", "cidr:"]

/-- The result record of `parse_v2fly_with_stats` (`V2FlyParseStats`). -/
structure V2FlyParseStats where
  domains : List String
  invalid_lines : Nat
  skipped_directives : Nat
deriving DecidableEq

/-- One iteration of the `parse_v2fly_with_stats` loop: strip the raw line,
skip blanks and comments, extract after `full:`/`domain:` (counting failures
as invalid), count known-directive lines containing a colon as skipped, and
otherwise try the whole line as a bare domain (counting failures as
invalid). -/
def v2fly_step (st : V2FlyParseStats) (raw : List Char) : V2FlyParseStats :=
  let line := stripL raw
  if line = [] then st
  else if line.head? = some '#' then st
  else if V2FLY_EXTRACT_MARKERS.any (fun p => p.data.isPrefixOf line) then
    match normalize_domain ⟨(line.dropWhile (fun c => c != ':')).drop 1⟩ with
    | some dom => { st with domains := st.domains ++ [dom] }
    | none => { st with invalid_lines := st.invalid_lines + 1 }
  else if line.contains ':' && V2FLY_DIRECTIVE_MARKERS.any (fun p => p.data.isPrefixOf line) then
    { st with skipped_directives := st.skipped_directives + 1 }
  else
    match normalize_domain ⟨line⟩ with
    | some dom => { st with domains := st.domains ++ [dom] }
    | none => { st with invalid_lines := st.invalid_lines + 1 }

/-- `parse_v2fly_with_stats(text)`: fold `v2fly_step` over the lines. -/
def parse_v2fly_with_stats (text : String) : V2FlyParseStats :=
  (splitLines text.data).foldl v2fly_step ⟨[], 0, 0⟩

/-- `dict.fromkeys` deduplication with an accumulator of already-seen keys:
keeps the first occurrence of every element, in order. -/
def dedupFirstAux (seen : List String) : List String → List String
  | [] => []
  | x :: xs =>
    if x ∈ seen then dedupFirstAux seen xs
    else x :: dedupFirstAux (x :: seen) xs

/-- `list(dict.fromkeys(l))`: deduplicate preserving first-occurrence order. -/
def dedupFirst (l : List String) : List String := dedupFirstAux [] l

/-- Python `sorted({...})` on a list of strings: the distinct elements in
ascending lexicographic order (equal strings are identical, so any
comparison sort agrees with Python's). -/
def pySortedSet (l : List String) : List String :=
  List.insertionSort (· ≤ ·) (dedupFirst l)

/-- `itdog_unique = list(dict.fromkeys(itdog_list))` (build.py line 455). -/
def itdog_unique (itdog_list : List String) : List String := dedupFirst itdog_list

/-- `v2fly_extras_sorted = sorted({d for d in v2fly_domains_all if d not in
itdog_set})` (build.py line 522), with `itdog_set = set(itdog_unique)`. -/
def v2fly_extras_sorted (itdog_list v2fly_domains_all : List String) : List String :=
  pySortedSet (v2fly_domains_all.filter (fun d => d ∉ itdog_unique itdog_list))

/-- `final_list_full = itdog_unique + v2fly_extras_sorted` (build.py line 526). -/
def final_list_full (itdog_list v2fly_domains_all : List String) : List String :=
  itdog_unique itdog_list ++ v2fly_extras_sorted itdog_list v2fly_domains_all

/-- `truncated_count` (build.py lines 535-537): the number of dropped lines. -/
def truncated_count (itdog_list v2fly_domains_all : List String) (maxLines : Nat) : Nat :=
  if (final_list_full itdog_list v2fly_domains_all).length > maxLines then
    (final_list_full itdog_list v2fly_domains_all).length - maxLines
  else 0

/-- `final_list` (build.py lines 536-540): the candidate truncated to
`MAX_LINES`, keeping the first entries. -/
def final_list (itdog_list v2fly_domains_all : List String) (maxLines : Nat) : List String :=
  if (final_list_full itdog_list v2fly_domains_all).length > maxLines then
    (final_list_full itdog_list v2fly_domains_all).take maxLines
  else final_list_full itdog_list v2fly_domains_all

/-- `MAX_LINES` of build.py. -/
def MAX_LINES : Nat := 3000

/-- `NEAR_LIMIT_THRESHOLD` of build.py. -/
def NEAR_LIMIT_THRESHOLD : Nat := 2900

/-- `diff_sets(prev, curr)` (build.py lines 206-209): `sorted(curr - prev)`
and `sorted(prev - curr)`; the Python sets become `Finset String`. -/
def diff_sets (prev curr : Finset String) : List String × List String :=
  ((curr \ prev).sort (· ≤ ·), (prev \ curr).sort (· ≤ ·))

/-- `FetchResult` of build.py. -/
structure FetchResult where
  ok : Bool
  text : String
  error : Option String
  status : Option Int
deriving DecidableEq

/-- Rendering of an `Optional[str]` inside a Python f-string. -/
def fErrorText (e : Option String) : String := e.getD "None"

/-- One row of `per_cat_stats` in build.py's `main`. -/
structure CatStats where
  valid_domains : Nat
  extras_added : Nat
  invalid_lines : Nat
  skipped_directives : Nat
  status : String
deriving DecidableEq

/-- The accumulator of the per-category loop in `main` (build.py 474-511). -/
structure CatAcc where
  v2fly_domains_all : List String
  per_cat : List (String × CatStats)
  failed_categories : List String
  empty_categories : List String
deriving DecidableEq

/-- The body of the per-category loop of `main` (build.py lines 474-511):
a failed fetch records a FAIL row and the failed-category entry; a
successful fetch parses, deduplicates, extends the global pool, and
records per-category stats (EMPTY status when no valid domain). -/
def process_category (itdogU : List String) (acc : CatAcc) (entry : String × FetchResult) :
    CatAcc :=
  if entry.2.ok = false then
    { acc with
      failed_categories :=
        acc.failed_categories ++ [entry.1 ++ " (" ++ fErrorText entry.2.error ++ ")"],
      per_cat := acc.per_cat ++ [(entry.1, ⟨0, 0, 0, 0, "FAIL"⟩)] }
  else
    let parsed := parse_v2fly_with_stats entry.2.text
    let valid := dedupFirst parsed.domains
    let extras := pySortedSet (valid.filter (fun d => d ∉ itdogU))
    let status := if valid.length = 0 then "EMPTY ⚠" else "OK"
    { acc with
      v2fly_domains_all := acc.v2fly_domains_all ++ valid,
      per_cat := acc.per_cat ++
        [(entry.1, ⟨valid.length, extras.length, parsed.invalid_lines,
          parsed.skipped_directives, status⟩)],
      empty_categories :=
        if valid.length = 0 then acc.empty_categories ++ [entry.1]
        else acc.empty_categories }

/-- The outputs of one run of `main`'s pure core (build.py lines 437-543). -/
structure RunResult where
  itdog_unique : List String
  v2fly_extras : List String
  final : List String
  truncated : Nat
  bad_output_lines : Nat
  warnings : List String
  failed_categories : List String
  empty_categories : List String
  per_cat : List (String × CatStats)

/-- The pure core of `main` (build.py lines 437-543): parse the itdog fetch,
deduplicate, run the per-category v2fly loop, compute the sorted extras, the
candidate list, the bad-output-line count, the truncation, and the warnings
list exactly as the code appends them (fetch failures and empty sources
only).  File and network I/O, history snapshots, reports and telegram
output are outside the core. -/
def main_core (itdogFetch : FetchResult) (catsFileExists : Bool)
    (cats : List (String × FetchResult)) (maxLines : Nat) : RunResult :=
  let itdog_list := if itdogFetch.ok then parse_itdog itdogFetch.text else []
  let w1 : List String :=
    if itdogFetch.ok then
      if (parse_itdog itdogFetch.text).length = 0 then
        ["itdog: список скачался, но пустой"]
      else []
    else ["itdog: не удалось скачать (" ++ fErrorText itdogFetch.error ++ ")"]
  let itdogU := dedupFirst itdog_list
  let acc :=
    if catsFileExists && !(cats.length = 0) then
      cats.foldl (process_category itdogU) ⟨[], [], [], []⟩
    else ⟨[], [], [], []⟩
  let w2 : List String :=
    if catsFileExists = false then ["v2fly: нет файла src/v2fly_allow.txt (v2fly пропущен)"]
    else if cats.length = 0 then ["v2fly: файл категорий пустой (v2fly пропущен)"]
    else
      (if acc.failed_categories.length = 0 then []
       else ["v2fly: не скачались категории: " ++ toString acc.failed_categories.length ++
             "/" ++ toString cats.length]) ++
      (if acc.v2fly_domains_all.length = 0 && 0 < cats.length &&
          acc.failed_categories.length = 0 then
        ["v2fly: категории указаны, но доменов не получено"]
       else [])
  let extras := pySortedSet (acc.v2fly_domains_all.filter (fun d => d ∉ itdogU))
  let full := itdogU ++ extras
  let bad := (full.filter (fun x => is_domain x = false)).length
  let trunc := if full.length > maxLines then full.length - maxLines else 0
  let fin := if full.length > maxLines then full.take maxLines else full
  { itdog_unique := itdogU, v2fly_extras := extras, final := fin,
    truncated := trunc, bad_output_lines := bad, warnings := w1 ++ w2,
    failed_categories := acc.failed_categories,
    empty_categories := acc.empty_categories, per_cat := acc.per_cat }

/-- The keys of the `state` dict that `main` persists to `state.json`
(build.py lines 642-651). -/
def build_state_keys : List String :=
  ["build_time_utc", "sha256_final", "itdog_domains", "v2fly_extras",
   "final_domains", "v2fly_per_category", "v2fly_categories", "warnings"]

/-- The keys of the canonical `state.json` record as the repository's own
reporting layer defines it (`ensure_state` in src/report_common.py lines
169-193), which is also the shape §6 of the spec describes. -/
def ensure_state_keys : List String :=
  ["build_time_utc", "repo", "output", "max_lines", "near_limit_threshold",
   "sha256_final", "itdog_domains", "v2fly_extras", "final_domains",
   "itdog_total", "v2fly_total", "final_total", "truncated",
   "bad_output_lines", "v2fly_ok", "v2fly_fail", "v2fly_categories",
   "v2fly_per_category", "warnings", "failed_categories", "empty_categories",
   "prev"]

/-- The 3001 pairwise-distinct strings used to exhibit truncation cutting
into the itdog segment at the configured maximum of 3000 lines. -/
def bigItdogInput : List String :=
  (List.range 3001).map (fun i => ⟨List.replicate i 'a'⟩)

/-- Scenario 2's itdog fetch: a successful download of
`"a.com\n#comment\n\nB.COM."`. -/
def scenario2_itdog_fetch : FetchResult := ⟨true, "a.com\n#comment\n\nB.COM.", none, some 200⟩

/-- Scenario 2's single v2fly category fetch: a successful download of
`"domain:a.com\nfull:c.com\ninclude:geosite:cn"`. -/
def scenario2_cat_fetch : FetchResult :=
  ⟨true, "domain:a.com\nfull:c.com\ninclude:geosite:cn", none, some 200⟩

/-- The run of `main`'s pure core on Scenario 2 of the spec with
`max_lines = 1`. -/
def scenario2_run : RunResult :=
  main_core scenario2_itdog_fetch true [("category", scenario2_cat_fetch)] 1

theorem dedupFirstAux_mem (seen l : List String) (a : String) :
    a ∈ dedupFirstAux seen l ↔ a ∈ l ∧ a ∉ seen := by
  induction l generalizing seen with
  | nil => simp [dedupFirstAux]
  | cons x xs ih =>
    by_cases hx : x ∈ seen
    · by_cases hax : a = x
      · subst hax
        simp [dedupFirstAux, hx, ih]
      · simp [dedupFirstAux, hx, ih, hax]
    · by_cases hax : a = x
      · subst hax
        simp [dedupFirstAux, hx]
      · simp [dedupFirstAux, hx, ih, hax]

theorem dedupFirstAux_sublist (seen l : List String) :
    (dedupFirstAux seen l).Sublist l := by
  induction l generalizing seen with
  | nil => simp [dedupFirstAux]
  | cons x xs ih =>
    by_cases hx : x ∈ seen
    · simp only [dedupFirstAux, if_pos hx]
      exact (ih seen).cons x
    · simp only [dedupFirstAux, if_neg hx]
      exact (ih (x :: seen)).cons₂ x

theorem dedupFirstAux_nodup (seen l : List String) : (dedupFirstAux seen l).Nodup := by
  induction l generalizing seen with
  | nil => simp [dedupFirstAux]
  | cons x xs ih =>
    by_cases hx : x ∈ seen
    · simpa [dedupFirstAux, hx] using ih seen
    · simp only [dedupFirstAux, if_neg hx, List.nodup_cons]
      refine ⟨fun hmem => ?_, ih (x :: seen)⟩
      exact ((dedupFirstAux_mem (x :: seen) xs x).mp hmem).2 (List.mem_cons_self x seen)

theorem dedupFirst_mem (l : List String) (a : String) : a ∈ dedupFirst l ↔ a ∈ l := by
  simp [dedupFirst, dedupFirstAux_mem]

theorem dedupFirst_nodup (l : List String) : (dedupFirst l).Nodup :=
  dedupFirstAux_nodup [] l

theorem dedupFirst_sublist (l : List String) : (dedupFirst l).Sublist l :=
  dedupFirstAux_sublist [] l

theorem dedupFirstAux_eq_self (seen l : List String) (hl : l.Nodup)
    (h : ∀ x ∈ l, x ∉ seen) : dedupFirstAux seen l = l := by
  induction l generalizing seen with
  | nil => simp [dedupFirstAux]
  | cons x xs ih =>
    have hx : x ∉ seen := h x (List.mem_cons_self x xs)
    simp only [dedupFirstAux, if_neg hx]
    refine congrArg (x :: ·) (ih (x :: seen) (List.Nodup.of_cons hl) ?_)
    intro y hy
    simp only [List.mem_cons]
    rintro (rfl | hmem)
    · exact (List.nodup_cons.mp hl).1 hy
    · exact h y (List.mem_cons_of_mem x hy) hmem

theorem dedupFirst_eq_self (l : List String) (hl : l.Nodup) : dedupFirst l = l :=
  dedupFirstAux_eq_self [] l hl (by simp)

theorem pySortedSet_mem (l : List String) (a : String) :
    a ∈ pySortedSet l ↔ a ∈ l := by
  unfold pySortedSet
  rw [(List.perm_insertionSort (· ≤ ·) (dedupFirst l)).mem_iff]
  exact dedupFirst_mem l a

theorem pySortedSet_sorted (l : List String) :
    List.Sorted (· ≤ ·) (pySortedSet l) :=
  List.sorted_insertionSort (· ≤ ·) (dedupFirst l)

theorem pySortedSet_nodup (l : List String) : (pySortedSet l).Nodup :=
  (List.perm_insertionSort (· ≤ ·) (dedupFirst l)).nodup_iff.mpr (dedupFirst_nodup l)

theorem v2fly_extras_sorted_mem (itdog v2fly : List String) (a : String) :
    a ∈ v2fly_extras_sorted itdog v2fly ↔ a ∈ v2fly ∧ a ∉ itdog_unique itdog := by
  unfold v2fly_extras_sorted
  rw [pySortedSet_mem]
  simp [List.mem_filter]

theorem ite_take_structure (U E : List String) (m : Nat) (h : U.length ≤ m) :
    (if (U ++ E).length > m then (U ++ E).take m else U ++ E) =
      U ++ E.take (m - U.length) := by
  by_cases hgt : (U ++ E).length > m
  · rw [if_pos hgt]
    have h3 := @List.take_append _ U E (m - U.length)
    rw [show U.length + (m - U.length) = m by omega] at h3
    exact h3
  · rw [if_neg hgt]
    have hE : E.length ≤ m - U.length := by
      simp only [List.length_append] at hgt
      omega
    rw [List.take_of_length_le hE]

/-- C1, counterexample.  The claim's order invariant — "the first
`len(itdog_unique)` entries of `final` equal `itdog_unique`" — fails on the
code whenever the deduplicated itdog list alone exceeds the configured
maximum (`MAX_LINES = 3000`): with 3001 distinct itdog domains and no v2fly
input, `final_list` keeps only 3000 entries, so its first 3001 entries
cannot reproduce `itdog_unique`. -/
theorem final_order_invariant_fails_at_configured_max :
    (final_list bigItdogInput [] MAX_LINES).take (itdog_unique bigItdogInput).length
      ≠ itdog_unique bigItdogInput := by
  have hnd : bigItdogInput.Nodup := by
    refine List.Nodup.map ?_ (List.nodup_range 3001)
    intro i j hij
    have hdata : List.replicate i 'a' = List.replicate j 'a' := congrArg String.data hij
    simpa using congrArg List.length hdata
  have hid : itdog_unique bigItdogInput = bigItdogInput := dedupFirst_eq_self _ hnd
  have hlen : bigItdogInput.length = 3001 := by simp [bigItdogInput]
  have hex : v2fly_extras_sorted bigItdogInput [] = [] := rfl
  have hfull : final_list_full bigItdogInput [] = bigItdogInput := by
    unfold final_list_full
    rw [hex, hid, List.append_nil]
  have hgt : (final_list_full bigItdogInput []).length > MAX_LINES := by
    rw [hfull, hlen]
    norm_num [MAX_LINES]
  have hfin : final_list bigItdogInput [] MAX_LINES = bigItdogInput.take 3000 := by
    unfold final_list
    rw [if_pos hgt, hfull]
    rfl
  intro heq
  have h1 := congrArg List.length heq
  rw [hfin, hid] at h1
  simp only [List.length_take, hlen] at h1
  omega

/-- C1, amended.  Provided the configured maximum is at least
`len(itdog_unique)` (otherwise truncation cuts into the itdog segment),
the final output starts with `itdog_unique` in original order and the
remainder is the truncated prefix of the sorted v2fly extras. -/
theorem final_order_invariant_of_itdog_le_max (itdog v2fly : List String) (maxLines : Nat)
    (h : (itdog_unique itdog).length ≤ maxLines) :
    (final_list itdog v2fly maxLines).take (itdog_unique itdog).length =
      itdog_unique itdog ∧
    (final_list itdog v2fly maxLines).drop (itdog_unique itdog).length =
      (v2fly_extras_sorted itdog v2fly).take (maxLines - (itdog_unique itdog).length) := by
  have key : final_list itdog v2fly maxLines =
      itdog_unique itdog ++
        (v2fly_extras_sorted itdog v2fly).take (maxLines - (itdog_unique itdog).length) := by
    unfold final_list final_list_full
    exact ite_take_structure _ _ _ h
  rw [key]
  exact ⟨List.take_left _ _, List.drop_left _ _⟩

/-- C1, witness for the amended theorem at a concrete input. -/
theorem final_order_invariant_of_itdog_le_max_witness :
    (itdog_unique ["b.com", "a.com", "b.com"]).length ≤ 2 ∧
    ((final_list ["b.com", "a.com", "b.com"] ["a.com", "c.com"] 2).take
        (itdog_unique ["b.com", "a.com", "b.com"]).length =
      itdog_unique ["b.com", "a.com", "b.com"] ∧
     (final_list ["b.com", "a.com", "b.com"] ["a.com", "c.com"] 2).drop
        (itdog_unique ["b.com", "a.com", "b.com"]).length =
      (v2fly_extras_sorted ["b.com", "a.com", "b.com"] ["a.com", "c.com"]).take
        (2 - (itdog_unique ["b.com", "a.com", "b.com"]).length)) :=
  ⟨by decide,
   final_order_invariant_of_itdog_le_max ["b.com", "a.com", "b.com"] ["a.com", "c.com"] 2
     (by decide)⟩

/-- C2.  The limit enforcement of build.py lines 534-540: a candidate
within the limit is returned unchanged with `truncated_count = 0`, an
over-long candidate is cut to its first `max_lines` entries, the final
list never exceeds `max_lines`, and `truncated_count` equals
`max(0, len(itdog_unique) + len(v2fly_extras) - max_lines)`. -/
theorem limit_enforcer_spec (itdog v2fly : List String) (maxLines : Nat) :
    ((final_list_full itdog v2fly).length ≤ maxLines →
      final_list itdog v2fly maxLines = final_list_full itdog v2fly ∧
      truncated_count itdog v2fly maxLines = 0) ∧
    (maxLines < (final_list_full itdog v2fly).length →
      final_list itdog v2fly maxLines = (final_list_full itdog v2fly).take maxLines) ∧
    (final_list itdog v2fly maxLines).length ≤ maxLines ∧
    (truncated_count itdog v2fly maxLines : ℤ) =
      max 0 (((itdog_unique itdog).length : ℤ) +
        ((v2fly_extras_sorted itdog v2fly).length : ℤ) - (maxLines : ℤ)) := by
  have hlen : (final_list_full itdog v2fly).length =
      (itdog_unique itdog).length + (v2fly_extras_sorted itdog v2fly).length := by
    unfold final_list_full
    exact List.length_append _ _
  refine ⟨fun hle => ?_, fun hlt => ?_, ?_, ?_⟩
  · have hnot : ¬ (final_list_full itdog v2fly).length > maxLines := by omega
    constructor
    · unfold final_list
      rw [if_neg hnot]
    · unfold truncated_count
      rw [if_neg hnot]
  · unfold final_list
    rw [if_pos hlt]
  · by_cases hgt : (final_list_full itdog v2fly).length > maxLines
    · unfold final_list
      rw [if_pos hgt]
      simp [List.length_take]
    · unfold final_list
      rw [if_neg hgt]
      omega
  · by_cases hgt : (final_list_full itdog v2fly).length > maxLines
    · unfold truncated_count
      rw [if_pos hgt]
      omega
    · unfold truncated_count
      rw [if_neg hgt]
      omega

/-- C2, witness at a concrete input (candidate within the limit). -/
theorem limit_enforcer_spec_witness :
    final_list ["a.com"] ["b.com"] 5 = final_list_full ["a.com"] ["b.com"] ∧
    truncated_count ["a.com"] ["b.com"] 5 = 0 :=
  (limit_enforcer_spec ["a.com"] ["b.com"] 5).1 (by decide)

/-- C3.  `set(itdog_unique)` and `set(v2fly_extras)` are disjoint, and a
domain occurring in both inputs lands in `itdog_unique` and never in the
extras (build.py lines 455 and 522). -/
theorem itdog_precedence (itdog v2fly : List String) (d : String) :
    ((itdog_unique itdog).toFinset ∩ (v2fly_extras_sorted itdog v2fly).toFinset = ∅) ∧
    (d ∈ itdog → d ∈ v2fly →
      d ∈ itdog_unique itdog ∧ d ∉ v2fly_extras_sorted itdog v2fly) := by
  constructor
  · ext a
    simp only [Finset.mem_inter, List.mem_toFinset, Finset.not_mem_empty, iff_false]
    rintro ⟨ha1, ha2⟩
    exact ((v2fly_extras_sorted_mem itdog v2fly a).mp ha2).2 ha1
  · intro h1 _h2
    have hU : d ∈ itdog_unique itdog := (dedupFirst_mem itdog d).mpr h1
    refine ⟨hU, fun hc => ?_⟩
    exact ((v2fly_extras_sorted_mem itdog v2fly d).mp hc).2 hU

/-- C3, witness: `a.com` is in both inputs, is kept in `itdog_unique`, and
is excluded from the extras. -/
theorem itdog_precedence_witness :
    "a.com" ∈ itdog_unique ["a.com"] ∧
    "a.com" ∉ v2fly_extras_sorted ["a.com"] ["a.com", "b.com"] :=
  (itdog_precedence ["a.com"] ["a.com", "b.com"] "a.com").2 (by decide) (by decide)

/-- C4.  `diff_sets` (build.py lines 206-209, applied in `main` to each of
the three domain sets): `added` is exactly `curr - prev`, `removed` is
exactly `prev - curr`, `prev ∪ added - removed` recovers `curr`, and an
empty previous state reports everything as added and nothing as removed. -/
theorem diff_sets_spec (prev curr : Finset String) :
    (diff_sets prev curr).1.toFinset = curr \ prev ∧
    (diff_sets prev curr).2.toFinset = prev \ curr ∧
    (prev ∪ (curr \ prev)) \ (prev \ curr) = curr ∧
    (diff_sets ∅ curr).1.toFinset = curr ∧
    (diff_sets ∅ curr).2 = [] := by
  refine ⟨Finset.sort_toFinset _ _, Finset.sort_toFinset _ _, ?_, ?_, ?_⟩
  · ext a
    simp only [Finset.mem_sdiff, Finset.mem_union]
    tauto
  · show ((curr \ ∅).sort (· ≤ ·)).toFinset = curr
    rw [Finset.sort_toFinset]
    simp
  · show ((∅ \ curr : Finset String)).sort (· ≤ ·) = []
    rw [Finset.empty_sdiff]
    exact Finset.sort_empty _

/-- C6 (code bug).  Scenario 2 of the spec run through `main`'s core with
`max_lines = 1`: the final list is truncated by two entries, yet the
warnings list that `main` stores into `state["warnings"]` stays empty —
build.py appends warnings only for fetch failures and empty sources, never
for truncation, the near-limit threshold, or bad output lines, although
the spec requires a truncation warning here. -/
theorem scenario2_truncation_emits_no_warning :
    scenario2_run.truncated = 2 ∧
    scenario2_run.warnings = [] ∧
    scenario2_run.final = ["a.com"] ∧
    scenario2_run.itdog_unique = ["a.com", "b.com"] ∧
    scenario2_run.v2fly_extras = ["c.com"] ∧
    scenario2_run.bad_output_lines = 0 := by
  decide

/-- C7 (code bug).  The `state` dict that build.py's `main` persists
(lines 642-651) lacks the configured max-lines and near-limit threshold,
the counts, the truncation and bad-line counters, the failed and empty
category lists, and the embedded previous-run snapshot — all keys that the
repository's own reporting layer (`ensure_state` in report_common.py)
declares as the canonical state shape and that the spec requires at
minimum. -/
theorem build_state_lacks_required_keys :
    "max_lines" ∉ build_state_keys ∧
    "near_limit_threshold" ∉ build_state_keys ∧
    "truncated" ∉ build_state_keys ∧
    "bad_output_lines" ∉ build_state_keys ∧
    "failed_categories" ∉ build_state_keys ∧
    "empty_categories" ∉ build_state_keys ∧
    "prev" ∉ build_state_keys ∧
    "itdog_total" ∉ build_state_keys ∧
    ("max_lines" ∈ ensure_state_keys ∧ "near_limit_threshold" ∈ ensure_state_keys ∧
     "truncated" ∈ ensure_state_keys ∧ "bad_output_lines" ∈ ensure_state_keys ∧
     "failed_categories" ∈ ensure_state_keys ∧ "empty_categories" ∈ ensure_state_keys ∧
     "prev" ∈ ensure_state_keys ∧ "itdog_total" ∈ ensure_state_keys) := by
  decide


theorem splitOnDot_cons (c : Char) (rest : List Char) :
    splitOnDot (c :: rest) =
      if c = '.' then [] :: splitOnDot rest
      else
        match splitOnDot rest with
        | [] => [[c]]
        | p :: ps => (c :: p) :: ps := rfl

theorem splitOnDot_cons_dot (rest : List Char) :
    splitOnDot ('.' :: rest) = [] :: splitOnDot rest := by
  rw [splitOnDot_cons, if_pos rfl]

theorem splitOnDot_cons_ne (c : Char) (rest : List Char) (hc : ¬ c = '.')
    (p : List Char) (ps : List (List Char)) (hs : splitOnDot rest = p :: ps) :
    splitOnDot (c :: rest) = (c :: p) :: ps := by
  rw [splitOnDot_cons, if_neg hc, hs]

theorem splitOnDot_ne_nil (l : List Char) : splitOnDot l ≠ [] := by
  cases l with
  | nil => simp [splitOnDot]
  | cons c rest =>
    by_cases hc : c = '.'
    · subst hc
      rw [splitOnDot_cons_dot]
      simp
    · cases hs : splitOnDot rest with
      | nil =>
        rw [splitOnDot_cons, if_neg hc, hs]
        simp
      | cons p ps =>
        rw [splitOnDot_cons_ne c rest hc p ps hs]
        simp

theorem splitOnDot_eq_single_nil (l : List Char) (h : splitOnDot l = [[]]) : l = [] := by
  cases l with
  | nil => rfl
  | cons c rest =>
    exfalso
    by_cases hc : c = '.'
    · subst hc
      rw [splitOnDot_cons_dot] at h
      simp only [List.cons.injEq] at h
      exact splitOnDot_ne_nil rest h.2
    · cases hs : splitOnDot rest with
      | nil => exact splitOnDot_ne_nil rest hs
      | cons p ps =>
        rw [splitOnDot_cons_ne c rest hc p ps hs] at h
        simp at h

theorem splitOnDot_getLast_of_dot (l : List Char) (h : l.getLast? = some '.') :
    (splitOnDot l).getLast? = some [] := by
  induction l with
  | nil => simp at h
  | cons c rest ih =>
    cases rest with
    | nil =>
      rw [List.getLast?_singleton] at h
      have hc : c = '.' := Option.some.inj h
      subst hc
      decide
    | cons c2 rest2 =>
      have h2 : (c2 :: rest2).getLast? = some '.' := by
        rwa [List.getLast?_cons_cons] at h
      have ihh := ih h2
      by_cases hc : c = '.'
      · subst hc
        rw [splitOnDot_cons_dot]
        cases hs : splitOnDot (c2 :: rest2) with
        | nil => exact absurd hs (splitOnDot_ne_nil _)
        | cons p ps =>
          rw [hs] at ihh
          rw [List.getLast?_cons_cons]
          exact ihh
      · cases hs : splitOnDot (c2 :: rest2) with
        | nil => exact absurd hs (splitOnDot_ne_nil _)
        | cons p ps =>
          rw [hs] at ihh
          rw [splitOnDot_cons_ne c (c2 :: rest2) hc p ps hs]
          cases ps with
          | nil =>
            rw [List.getLast?_singleton] at ihh
            have hp : p = [] := Option.some.inj ihh
            subst hp
            exact absurd (splitOnDot_eq_single_nil _ hs) (by simp)
          | cons q qs =>
            rw [List.getLast?_cons_cons]
            rw [List.getLast?_cons_cons] at ihh
            exact ihh

theorem exists_part_of_mem_splitOnDot (l : List Char) (c : Char) (hc : c ∈ l)
    (hne : c ≠ '.') : ∃ p ∈ splitOnDot l, c ∈ p := by
  induction l with
  | nil => simp at hc
  | cons a rest ih =>
    by_cases ha : a = '.'
    · subst ha
      have hcr : c ∈ rest := by
        rcases List.mem_cons.mp hc with h1 | h1
        · exact absurd h1 hne
        · exact h1
      obtain ⟨p, hp, hcp⟩ := ih hcr
      refine ⟨p, ?_, hcp⟩
      rw [splitOnDot_cons_dot]
      exact List.mem_cons_of_mem _ hp
    · cases hs : splitOnDot rest with
      | nil => exact absurd hs (splitOnDot_ne_nil _)
      | cons p ps =>
        rw [splitOnDot_cons_ne a rest ha p ps hs]
        rcases List.mem_cons.mp hc with h1 | h1
        · exact ⟨a :: p, List.mem_cons_self _ _, by simp [h1]⟩
        · obtain ⟨q, hq, hcq⟩ := ih h1
          rw [hs] at hq
          rcases List.mem_cons.mp hq with h2 | h2
          · subst h2
            exact ⟨a :: q, List.mem_cons_self _ _, List.mem_cons_of_mem _ hcq⟩
          · exact ⟨q, List.mem_cons_of_mem _ h2, hcq⟩

theorem isLabel_chars (p : List Char) (h : isLabel p = true) (c : Char) (hc : c ∈ p) :
    isLabelChar c = true := by
  cases p with
  | nil => simp at hc
  | cons a rest =>
    simp only [isLabel, Bool.and_eq_true, Bool.or_eq_true, decide_eq_true_eq] at h
    obtain ⟨⟨ha, _⟩, hrest⟩ := h
    rcases List.mem_cons.mp hc with h1 | h1
    · subst h1
      simp [isLabelChar, ha]
    · have hne : rest ≠ [] := List.ne_nil_of_mem h1
      rcases hrest with hemp | ⟨hmid, hlastc⟩
      · rw [List.isEmpty_iff] at hemp
        exact absurd hemp hne
      · have hdec := List.dropLast_append_getLast hne
        rw [← hdec] at h1
        rcases List.mem_append.mp h1 with h2 | h2
        · exact List.all_eq_true.mp hmid c h2
        · have hc2 : c = rest.getLast hne := by simpa using h2
          rw [List.getLast?_eq_getLast rest hne] at hlastc
          simp only [Option.elim] at hlastc
          rw [hc2]
          simp [isLabelChar, hlastc]

theorem isFinalLabel_chars (f : List Char) (h : isFinalLabel f = true) (c : Char)
    (hc : c ∈ f) : isLabelChar c = true := by
  simp only [isFinalLabel, Bool.and_eq_true, decide_eq_true_eq] at h
  exact List.all_eq_true.mp h.2 c hc

theorem domainRe_no_colon (l : List Char) (h : domainRe l = true) : ':' ∉ l := by
  intro hcol
  obtain ⟨p, hp, hcp⟩ := exists_part_of_mem_splitOnDot l ':' hcol (by decide)
  simp only [domainRe, Bool.and_eq_true, decide_eq_true_eq] at h
  obtain ⟨⟨_, hall⟩, hmatch⟩ := h
  have hne : splitOnDot l ≠ [] := splitOnDot_ne_nil l
  have hdecomp := List.dropLast_append_getLast hne
  rw [← hdecomp] at hp
  rcases List.mem_append.mp hp with h1 | h1
  · have hlab := List.all_eq_true.mp hall p h1
    have := isLabel_chars p hlab ':' hcp
    simp [isLabelChar, isAlnumChar] at this
  · have h2 : p = (splitOnDot l).getLast hne := by simpa using h1
    rw [List.getLast?_eq_getLast _ hne] at hmatch
    simp only [Option.elim] at hmatch
    rw [h2] at hcp
    have := isFinalLabel_chars _ hmatch ':' hcp
    simp [isLabelChar, isAlnumChar] at this

theorem domainRe_getLast_ne_dot (l : List Char) (h : domainRe l = true) :
    l.getLast? ≠ some '.' := by
  intro hdot
  have hlast := splitOnDot_getLast_of_dot l hdot
  simp only [domainRe, Bool.and_eq_true, decide_eq_true_eq] at h
  obtain ⟨_, hmatch⟩ := h
  rw [hlast] at hmatch
  exact absurd hmatch (by decide)

theorem dropWhile_eq_self_of (p : Char → Bool) (l : List Char)
    (h : ∀ c ∈ l, p c = false) : l.dropWhile p = l := by
  cases l with
  | nil => rfl
  | cons a t =>
    rw [List.dropWhile_cons, h a (List.mem_cons_self a t)]
    simp

theorem stripL_eq_self_of_no_space (l : List Char)
    (h : ∀ c ∈ l, isSpaceChar c = false) : stripL l = l := by
  unfold stripL
  rw [dropWhile_eq_self_of _ _ h]
  rw [dropWhile_eq_self_of _ _ (fun c hc => h c (List.mem_reverse.mp hc))]
  exact List.reverse_reverse l

theorem mem_dropWhile_of_mem (p : Char → Bool) (l : List Char) (c : Char)
    (hc : c ∈ l) (hp : p c = false) : c ∈ l.dropWhile p := by
  induction l with
  | nil => simp at hc
  | cons a t ih =>
    rw [List.dropWhile_cons]
    by_cases hpa : p a = true
    · rw [hpa]
      simp only [if_true]
      rcases List.mem_cons.mp hc with h1 | h1
      · subst h1
        rw [hpa] at hp
        cases hp
      · exact ih h1
    · simp only [Bool.not_eq_true] at hpa
      rw [hpa]
      simpa using hc

theorem mem_stripL_of_mem (l : List Char) (c : Char) (hc : c ∈ l)
    (hsp : isSpaceChar c = false) : c ∈ stripL l := by
  unfold stripL
  rw [List.mem_reverse]
  apply mem_dropWhile_of_mem _ _ _ _ hsp
  rw [List.mem_reverse]
  exact mem_dropWhile_of_mem _ _ _ hc hsp

theorem map_eq_self_of (f : Char → Char) (l : List Char)
    (h : ∀ a ∈ l, f a = a) : l.map f = l := by
  have h2 : l.map f = l.map id := List.map_congr_left h
  rw [h2, List.map_id]

theorem pyLowerChar_idem (c : Char) : pyLowerChar (pyLowerChar c) = pyLowerChar c := by
  unfold pyLowerChar
  split
  · next h =>
    have ht : (Char.ofNatAux (c.toNat + 32) (Or.inl (by omega))).toNat = c.toNat + 32 := rfl
    rw [dif_neg]
    rw [ht]
    omega
  · rfl

theorem pyLowerChar_ne_cr (c : Char) (h : c ≠ '\r') : pyLowerChar c ≠ '\r' := by
  unfold pyLowerChar
  split
  · next hc =>
    intro heq
    have ht : (Char.ofNatAux (c.toNat + 32) (Or.inl (by omega))).toNat = c.toNat + 32 := rfl
    rw [heq] at ht
    have h13 : ('\r').toNat = 13 := rfl
    omega
  · exact h

theorem pyLowerChar_fix_of_mem_lower (l : List Char) (c : Char) (hc : c ∈ lowerL l) :
    pyLowerChar c = c := by
  obtain ⟨a, _, ha⟩ := List.mem_map.mp hc
  rw [← ha]
  exact pyLowerChar_idem a

theorem removeCR_eq_self_of (l : List Char) (h : ∀ c ∈ l, c ≠ '\r') :
    removeCR l = l := by
  unfold removeCR
  rw [List.filter_eq_self]
  intro a ha
  simpa using h a ha

theorem mem_removeCR_of_mem (l : List Char) (c : Char) (hc : c ∈ l) (h : c ≠ '\r') :
    c ∈ removeCR l := by
  unfold removeCR
  rw [List.mem_filter]
  exact ⟨hc, by simpa⟩

theorem is_domain_false_of_colon (m : List Char) (h : ':' ∈ m) :
    is_domain ⟨m⟩ = false := by
  by_contra hcon
  simp only [Bool.not_eq_false] at hcon
  have hre : domainRe (lowerL (stripL m)) = true := hcon
  apply domainRe_no_colon _ hre
  have h1 : ':' ∈ stripL m := mem_stripL_of_mem _ _ h (by decide)
  exact List.mem_map.mpr ⟨':', h1, by decide⟩

theorem normalize_domain_none_of_colon (s : String) (h : ':' ∈ s.data) :
    normalize_domain s = none := by
  have h1 : ':' ∈ stripL s.data := mem_stripL_of_mem _ _ h (by decide)
  have h2 : ':' ∈ lowerL (stripL s.data) := List.mem_map.mpr ⟨':', h1, by decide⟩
  have h3 : ':' ∈ removeCR (lowerL (stripL s.data)) :=
    mem_removeCR_of_mem _ _ h2 (by decide)
  simp only [normalize_domain]
  rw [if_neg (List.ne_nil_of_mem h3)]
  by_cases hdot : (removeCR (lowerL (stripL s.data))).getLast? = some '.'
  · rw [if_pos hdot]
    have hne : removeCR (lowerL (stripL s.data)) ≠ [] := List.ne_nil_of_mem h3
    have hmem : ':' ∈ (removeCR (lowerL (stripL s.data))).dropLast := by
      have hlast : (removeCR (lowerL (stripL s.data))).getLast hne = '.' := by
        have hx := List.getLast?_eq_getLast (removeCR (lowerL (stripL s.data))) hne
        rw [hdot] at hx
        exact (Option.some.inj hx).symm
      have hdec := List.dropLast_append_getLast hne
      rw [← hdec] at h3
      rcases List.mem_append.mp h3 with h4 | h4
      · exact h4
      · rw [hlast] at h4
        simp at h4
    rw [is_domain_false_of_colon _ hmem]
    simp
  · rw [if_neg hdot]
    rw [is_domain_false_of_colon _ h3]
    simp

/-- C5, counterexample.  The line `"foo:bar"` contains a colon, starts with
no extraction prefix and no recognized directive prefix, and
`parse_v2fly_with_stats` counts it as an invalid line (`invalid_lines = 1`,
`skipped_directives = 0`), not as a skipped directive as the claim states. -/
theorem unknown_colon_line_not_skipped_example :
    (parse_v2fly_with_stats "foo:bar").skipped_directives = 0 ∧
    (parse_v2fly_with_stats "foo:bar").invalid_lines = 1 ∧
    (parse_v2fly_with_stats "foo:bar").domains = [] := by
  decide

/-- C5, amended.  In `parse_v2fly_with_stats` a non-blank, non-comment line
that contains `:` but starts with neither an extraction prefix
(`full:`/`domain:`) nor a recognized directive prefix increments
`invalid_lines` — not `skipped_directives`; only recognized directive
prefixes are counted as skipped.  (The counter-free parser in
build_v2fly.py silently skips such lines instead, which is the behavior
the claim describes.) -/
theorem unknown_colon_line_counted_invalid (st : V2FlyParseStats) (raw : List Char)
    (h1 : stripL raw ≠ [])
    (h2 : (stripL raw).head? ≠ some '#')
    (h3 : ':' ∈ stripL raw)
    (h4 : V2FLY_EXTRACT_MARKERS.any (fun p => p.data.isPrefixOf (stripL raw)) = false)
    (h5 : V2FLY_DIRECTIVE_MARKERS.any (fun p => p.data.isPrefixOf (stripL raw)) = false) :
    v2fly_step st raw = { st with invalid_lines := st.invalid_lines + 1 } := by
  simp only [v2fly_step]
  rw [if_neg h1, if_neg h2, h4, h5]
  simp only [Bool.and_false, Bool.false_eq_true, if_false]
  rw [normalize_domain_none_of_colon ⟨stripL raw⟩ h3]

/-- C5, witness for the amended theorem at the line `"foo:bar"`. -/
theorem unknown_colon_line_counted_invalid_witness :
    v2fly_step ⟨[], 0, 0⟩ ("foo:bar".data) = ⟨[], 1, 0⟩ := by
  have h := unknown_colon_line_counted_invalid ⟨[], 0, 0⟩ ("foo:bar".data)
    (by decide) (by decide) (by decide) (by decide) (by decide)
  simpa using h

/-- C8, counterexample.  `normalize_domain` does not strip extraction
prefixes: applied to `"domain:a.com"` it rejects the string (the colon
fails `DOMAIN_RE`) instead of yielding `a.com` as the claim states. -/
theorem normalize_domain_rejects_extraction_marker :
    normalize_domain "domain:a.com" = none := by decide

/-- C8, amended.  Extraction-prefix stripping is performed by the v2fly
parser, not by the validator: `parse_v2fly_with_stats` splits the line at
the first colon and validates the remainder, mapping `"domain:a.com"` to
`a.com` and `"full:b.com"` to `b.com`, while `normalize_domain` itself
rejects the prefixed string. -/
theorem extraction_stripped_by_parser_not_validator :
    parse_v2fly_with_stats "domain:a.com" = ⟨["a.com"], 0, 0⟩ ∧
    parse_v2fly_with_stats "full:b.com" = ⟨["b.com"], 0, 0⟩ ∧
    normalize_domain "domain:a.com" = none ∧
    normalize_domain "a.com" = some "a.com" := by
  decide

theorem removeCR_cons (c : Char) (t : List Char) :
    removeCR (c :: t) = if c = '\r' then removeCR t else c :: removeCR t := by
  unfold removeCR
  rw [List.filter_cons]
  by_cases hc : c = '\r'
  · subst hc
    simp
  · simp [hc]

theorem dropWhile_filter_comm (p q : Char → Bool) (hpq : ∀ c, p c = false → q c = true)
    (l : List Char) : (l.filter p).dropWhile q = (l.dropWhile q).filter p := by
  induction l with
  | nil => rfl
  | cons a t ih =>
    by_cases hqa : q a = true
    · by_cases hpa : p a = true
      · rw [List.filter_cons, List.dropWhile_cons, hpa, hqa]
        simp only [if_true]
        rw [List.dropWhile_cons, hqa]
        simp only [if_true]
        exact ih
      · simp only [Bool.not_eq_true] at hpa
        rw [List.filter_cons, List.dropWhile_cons, hpa, hqa]
        simp only [Bool.false_eq_true, if_false, if_true]
        exact ih
    · have hpa : p a = true := by
        rcases Bool.eq_false_or_eq_true (p a) with hta | hfa
        · exact hta
        · rw [hpq a hfa] at hqa
          exact absurd rfl hqa
      simp only [Bool.not_eq_true] at hqa
      rw [List.filter_cons, List.dropWhile_cons, hpa, hqa]
      simp only [if_true, Bool.false_eq_true, if_false]
      rw [List.dropWhile_cons, hqa]
      simp only [Bool.false_eq_true, if_false]
      rw [List.filter_cons, hpa]
      simp

theorem stripL_removeCR_comm (l : List Char) : stripL (removeCR l) = removeCR (stripL l) := by
  have hpq : ∀ c : Char, (c != '\r') = false → isSpaceChar c = true := by
    intro c hcc
    have hc : c = '\r' := by simpa using hcc
    subst hc
    decide
  unfold stripL removeCR
  rw [dropWhile_filter_comm _ _ hpq l]
  rw [← List.filter_reverse]
  rw [dropWhile_filter_comm _ _ hpq]
  rw [← List.filter_reverse]

theorem removeCR_idem (l : List Char) : removeCR (removeCR l) = removeCR l := by
  apply removeCR_eq_self_of
  intro c hc
  have h2 := (List.mem_filter.mp hc).2
  simpa using h2

theorem removeCR_lowerL_comm (l : List Char) : removeCR (lowerL l) = lowerL (removeCR l) := by
  induction l with
  | nil => rfl
  | cons a t ih =>
    have e1 : lowerL (a :: t) = pyLowerChar a :: lowerL t := rfl
    rw [e1, removeCR_cons, removeCR_cons]
    by_cases ha : a = '\r'
    · subst ha
      rw [if_pos (by decide : pyLowerChar '\r' = '\r'), if_pos rfl]
      exact ih
    · rw [if_neg (pyLowerChar_ne_cr a ha), if_neg ha]
      have e2 : lowerL (a :: removeCR t) = pyLowerChar a :: lowerL (removeCR t) := rfl
      rw [e2, ih]

theorem normalize_domain_congr (s1 s2 : String)
    (h : removeCR (lowerL (stripL s1.data)) = removeCR (lowerL (stripL s2.data))) :
    normalize_domain s1 = normalize_domain s2 := by
  simp only [normalize_domain]
  rw [h]

/-- C10.  `normalize_domain` deletes every carriage return before
validating: its result is invariant under removing all `"\r"` characters
from the input first, and the string `"exam\rple.com"` is accepted and
normalized to `example.com`. -/
theorem normalize_domain_cr_invariant :
    (∀ s : String, normalize_domain s = normalize_domain ⟨removeCR s.data⟩) ∧
    normalize_domain "exam\rple.com" = some "example.com" := by
  constructor
  · intro s
    apply normalize_domain_congr
    show removeCR (lowerL (stripL s.data)) = removeCR (lowerL (stripL (removeCR s.data)))
    rw [stripL_removeCR_comm]
    rw [← removeCR_lowerL_comm]
    rw [removeCR_idem]
  · decide

theorem normalize_domain_some_facts (s d : String) (h : normalize_domain s = some d) :
    is_domain d = true ∧ ∀ c ∈ d.data, pyLowerChar c = c := by
  simp only [normalize_domain] at h
  by_cases h0 : removeCR (lowerL (stripL s.data)) = []
  · rw [if_pos h0] at h
    cases h
  · rw [if_neg h0] at h
    have hfix : ∀ c ∈ removeCR (lowerL (stripL s.data)), pyLowerChar c = c := by
      intro c hc
      exact pyLowerChar_fix_of_mem_lower _ _ (List.mem_of_mem_filter hc)
    by_cases hdot : (removeCR (lowerL (stripL s.data))).getLast? = some '.'
    · rw [if_pos hdot] at h
      by_cases hd : is_domain ⟨(removeCR (lowerL (stripL s.data))).dropLast⟩ = true
      · rw [if_pos hd] at h
        have hds : (⟨(removeCR (lowerL (stripL s.data))).dropLast⟩ : String) = d :=
          Option.some.inj h
        rw [← hds]
        refine ⟨hd, fun c hc => ?_⟩
        exact hfix c ((List.dropLast_sublist _).subset hc)
      · rw [if_neg hd] at h
        cases h
    · rw [if_neg hdot] at h
      by_cases hd : is_domain ⟨removeCR (lowerL (stripL s.data))⟩ = true
      · rw [if_pos hd] at h
        have hds : (⟨removeCR (lowerL (stripL s.data))⟩ : String) = d := Option.some.inj h
        rw [← hds]
        exact ⟨hd, hfix⟩
      · rw [if_neg hd] at h
        cases h

/-- C9, counterexample.  Idempotence fails on `"example.com ."`: stripping
the trailing dot exposes a trailing space that `normalize_domain` returns
as part of the accepted value, so a second normalization yields a
different string. -/
theorem normalize_domain_not_idempotent_example :
    normalize_domain "example.com ." = some "example.com " ∧
    normalize_domain "example.com " = some "example.com" ∧
    ("example.com " : String) ≠ "example.com" := by
  refine ⟨by decide, by decide, by decide⟩

/-- C9, amended.  `normalize_domain` is idempotent on every success whose
result contains no whitespace (the result can carry whitespace only when
the input had whitespace directly before a stripped trailing dot, as in
`"example.com ."`): if `normalize_domain s = some d` and no character of
`d` is whitespace, then `normalize_domain d = some d`. -/
theorem normalize_domain_idempotent_of_no_space (s d : String)
    (h : normalize_domain s = some d)
    (hws : ∀ c ∈ d.data, isSpaceChar c = false) :
    normalize_domain d = some d := by
  obtain ⟨hdom, hfix⟩ := normalize_domain_some_facts s d h
  have hstrip : stripL d.data = d.data := stripL_eq_self_of_no_space _ hws
  have hlow : lowerL d.data = d.data := map_eq_self_of _ _ hfix
  have hcr : removeCR d.data = d.data := by
    apply removeCR_eq_self_of
    intro c hc heq
    have hcw := hws c hc
    rw [heq] at hcw
    exact absurd hcw (by decide)
  have hre : domainRe (lowerL (stripL d.data)) = true := hdom
  rw [hstrip, hlow] at hre
  have hne : d.data ≠ [] := by
    intro he
    rw [he] at hre
    exact absurd hre (by decide)
  have hdot : d.data.getLast? ≠ some '.' := domainRe_getLast_ne_dot _ hre
  simp only [normalize_domain]
  rw [hstrip, hlow, hcr]
  rw [if_neg hne, if_neg hdot]
  rw [if_pos (show is_domain ⟨d.data⟩ = true from hdom)]

/-- C9, witness for the amended theorem: `"A.com."` normalizes to the
whitespace-free `a.com`, on which `normalize_domain` is idempotent. -/
theorem normalize_domain_idempotent_of_no_space_witness :
    normalize_domain "A.com." = some "a.com" ∧
    normalize_domain "a.com" = some "a.com" :=
  ⟨by decide,
   normalize_domain_idempotent_of_no_space "A.com." "a.com" (by decide) (by decide)⟩
